import Mathlib

/-!
# Verification of the extensions registry validation / selection / canonicalization core

Shallow embedding of `src/lib/validation.ts` and `src/cli.ts` of the
`neopilot-ai/extensions` repository.  JavaScript strings are modelled as
`String` (lists of characters), dynamically typed values as the inductive
`JVal`, objects as ordered association lists, and JavaScript `Map`/`Set`
inputs as association lists of lists.  The regular expressions of the source
are translated into executable character-list matchers.  Fallible
(throwing) code returns `Except String`.
-/

namespace Extensions

/-! ## Character-level infrastructure (JavaScript string primitives) -/

/-- The character class of JavaScript `\s` (used by `trim()` and the
`\s*` parts of the gitmodules regexes). -/
def jsWs (c : Char) : Bool :=
  c = ' ' || c = '\t' || c = '\n' || c = '\r' || c = '\x0b' || c = '\x0c' ||
  c = '\u00A0' || c = '\u1680' ||
  (decide ('\u2000' ≤ c) && decide (c ≤ '\u200A')) ||
  c = '\u2028' || c = '\u2029' || c = '\u202F' || c = '\u205F' ||
  c = '\u3000' || c = '\uFEFF'

/-- JavaScript line terminators: the characters that `.` in a regular
expression does not match. -/
def isLineTerm (c : Char) : Bool :=
  c = '\n' || c = '\r' || c = '\u2028' || c = '\u2029'

/-- JavaScript `String.prototype.trim` on a character list. -/
def trimChars (l : List Char) : List Char :=
  ((l.dropWhile jsWs).reverse.dropWhile jsWs).reverse

/-- JavaScript `str.split("\n")` on a character list: `n` separators give
`n + 1` pieces, the empty string gives one empty piece. -/
def splitNl : List Char → List (List Char)
  | [] => [[]]
  | c :: rest =>
    if c = '\n' then [] :: splitNl rest
    else
      match splitNl rest with
      | [] => [[c]]
      | l :: ls => (c :: l) :: ls

/-- `split("\n").map(trim).filter(length > 0)` from `validateGitmodules`. -/
def prepLines (cs : List Char) : List (List Char) :=
  ((splitNl cs).map trimChars).filter (fun l => !l.isEmpty)

/-- Strip an expected literal prefix from a character list, returning the
remainder on success. -/
def stripPre : List Char → List Char → Option (List Char)
  | [], l => some l
  | _ :: _, [] => none
  | p :: ps, c :: cs => if c = p then stripPre ps cs else none

/-! ## The extension ID pattern `^[a-z0-9-]+$` -/

/-- One character of the class `[a-z0-9-]`. -/
def idChar (c : Char) : Bool :=
  (decide ('a' ≤ c) && decide (c ≤ 'z')) ||
  (decide ('0' ≤ c) && decide (c ≤ '9')) || c = '-'

/-- `EXTENSION_ID_PATTERN.test(s)` for `/^[a-z0-9\-]+$/`: a full-string
match of one or more characters of the class. -/
def idPat (s : String) : Bool :=
  !s.data.isEmpty && s.data.all idChar

/-! ## A model of JavaScript values

The validators take dynamically typed parsed TOML / JSON data.  `undefined`
is the result of reading an absent property. -/

inductive JVal where
  | undefined : JVal
  | null : JVal
  | bool : Bool → JVal
  | num : Int → JVal
  | str : String → JVal
  | arr : List JVal → JVal
  | obj : List (String × JVal) → JVal

/-- JavaScript truthiness. -/
def truthy : JVal → Bool
  | .undefined => false
  | .null => false
  | .bool b => b
  | .num n => n != 0
  | .str s => s != ""
  | .arr _ => true
  | .obj _ => true

/-- `typeof v === "object"` (true for `null`, arrays and plain objects). -/
def isObjectType : JVal → Bool
  | .null => true
  | .arr _ => true
  | .obj _ => true
  | _ => false

/-- `typeof v === "string"`. -/
def isStr : JVal → Bool
  | .str _ => true
  | _ => false

/-- Property read `v[k]`: first binding of an object key, `undefined`
otherwise.  (String-keyed reads on non-objects used by the source always
concern absent properties.) -/
def jsGet : JVal → String → JVal
  | .obj l, k =>
    match l.find? (fun p => p.1 == k) with
    | some p => p.2
    | none => .undefined
  | _, _ => .undefined

/-- Enumerable own entries, as used by `for (const k in v)` /
`Object.keys(v)`: the bindings of an object, index-value pairs of an
array, nothing otherwise. -/
def jsEntries : JVal → List (String × JVal)
  | .obj l => l
  | .arr xs => (xs.enum.map fun p => (toString p.1, p.2))
  | _ => []

/-- `Object.keys(v)`. -/
def jsKeys (v : JVal) : List String :=
  (jsEntries v).map Prod.fst

mutual
/-- JavaScript `String(v)` coercion, as applied by `RegExp.test` to a
non-string argument. -/
def jsToStr : JVal → String
  | .undefined => "undefined"
  | .null => "null"
  | .bool true => "true"
  | .bool false => "false"
  | .num n => toString n
  | .str s => s
  | .arr xs => jsToStrList xs
  | .obj _ => "[object Object]"

/-- Array-to-string coercion: elements joined with commas. -/
def jsToStrList : List JVal → String
  | [] => ""
  | [x] => jsToStr x
  | x :: y :: rest => jsToStr x ++ "," ++ jsToStrList (y :: rest)
end

/-! ## `validateExtensionsToml` (validation.ts, lines 35-80) -/

/-- The first loop of `validateExtensionsToml`: every top-level key must
match the ID pattern, else throw naming that key. -/
def checkTopKeys : List String → Except String Unit
  | [] => .ok ()
  | k :: ks =>
    if idPat k then checkTopKeys ks
    else .error ("Extension IDs must only consist of lowercase letters, numbers, and hyphens ('-'): \"" ++ k ++ "\".")

/-- The per-entry checks of the nested `extensions` section. -/
def checkEntry (k : String) (x : JVal) : Except String Unit :=
  if !idPat k then
    .error ("Invalid extension ID: " ++ k ++ ". Must contain only lowercase letters, numbers, and hyphens")
  else if !(truthy x && isObjectType x) then
    .error ("Extension " ++ k ++ " must be an object")
  else if !(truthy (jsGet x "version") && isStr (jsGet x "version")) then
    .error ("Extension " ++ k ++ " missing or invalid version")
  else if !(truthy (jsGet x "source") && isStr (jsGet x "source")) then
    .error ("Extension " ++ k ++ " missing or invalid source")
  else .ok ()

/-- The loop over the nested `extensions` entries. -/
def checkEntries : List (String × JVal) → Except String Unit
  | [] => .ok ()
  | (k, x) :: rest =>
    match checkEntry k x with
    | .error e => .error e
    | .ok () => checkEntries rest

/-- `validateExtensionsToml` from validation.ts: throw-based validation of
the parsed `extensions.toml` object. -/
def validateExtensionsToml (extensionsToml : JVal) : Except String Unit :=
  if !(truthy extensionsToml && isObjectType extensionsToml) then
    .error "extensions.toml must be an object"
  else
    match checkTopKeys (jsKeys extensionsToml) with
    | .error e => .error e
    | .ok () =>
      let extensions := jsGet extensionsToml "extensions"
      if !(truthy extensions && isObjectType extensions) then
        .error "Missing or invalid extensions section"
      else
        checkEntries (jsEntries extensions)

/-! ## `validateManifest` (validation.ts, lines 87-144) -/

structure ValidationResult where
  isValid : Bool
  errors : List String
deriving Repr, DecidableEq

/-- `if (cond) errors.push(msg)` as a list segment. -/
def errIf (b : Bool) (m : String) : List String := if b then [m] else []

/-- The required-fields loop: `name`, `version`, `description` must be
present (truthy) strings. -/
def requiredFieldErrs (manifest : JVal) : List String :=
  ["name", "version", "description"].filterMap fun field =>
    if truthy (jsGet manifest field) && isStr (jsGet manifest field) then none
    else some ("Missing or invalid required field: " ++ field)

/-- Consume one or more decimal digits (`\d+`, greedy; safe because the
following regex atom never matches a digit). -/
def digitsRun : List Char → Option (List Char)
  | c :: cs => if c.isDigit then some (cs.dropWhile Char.isDigit) else none
  | [] => none

/-- One character of the class `[a-zA-Z0-9\-\.]`. -/
def semverTailChar (c : Char) : Bool :=
  c.isDigit ||
  (decide ('a' ≤ c) && decide (c ≤ 'z')) ||
  (decide ('A' ≤ c) && decide (c ≤ 'Z')) ||
  c = '-' || c = '.'

/-- Full-string match of `^\d+\.\d+\.\d+(-[a-zA-Z0-9\-\.]+)?$`. -/
def semverCore (cs : List Char) : Bool :=
  match digitsRun cs with
  | none => false
  | some r1 =>
    match r1 with
    | '.' :: r2 =>
      match digitsRun r2 with
      | none => false
      | some r3 =>
        match r3 with
        | '.' :: r4 =>
          match digitsRun r4 with
          | none => false
          | some r5 =>
            match r5 with
            | [] => true
            | '-' :: r6 => !r6.isEmpty && r6.all semverTailChar
            | _ => false
        | _ => false
    | _ => false

/-- `versionRegex.test(s)` from `validateManifest`. -/
def semverTest (s : String) : Bool := semverCore s.data

/-- `Array.isArray(v) && v.every(k => typeof k === "string")`. -/
def isStrArray : JVal → Bool
  | .arr xs => xs.all isStr
  | _ => false

/-- `validateManifest` from validation.ts: collect-all validation of the
packaging manifest object. -/
def validateManifest (manifest : JVal) : ValidationResult :=
  if !(truthy manifest && isObjectType manifest) then
    ⟨false, ["Manifest must be an object"]⟩
  else
    let errors :=
      requiredFieldErrs manifest
      ++ errIf (truthy (jsGet manifest "name") && !idPat (jsToStr (jsGet manifest "name")))
          "Manifest name must contain only lowercase letters, numbers, and hyphens"
      ++ errIf (truthy (jsGet manifest "version") && !semverTest (jsToStr (jsGet manifest "version")))
          "Version must follow semantic versioning format (e.g., 1.0.0 or 1.0.0-beta.1)"
      ++ errIf (truthy (jsGet manifest "author") && !isStr (jsGet manifest "author"))
          "Author must be a string"
      ++ errIf (truthy (jsGet manifest "license") && !isStr (jsGet manifest "license"))
          "License must be a string"
      ++ errIf (truthy (jsGet manifest "repository") && !isStr (jsGet manifest "repository"))
          "Repository must be a string"
      ++ errIf (truthy (jsGet manifest "keywords") && !isStrArray (jsGet manifest "keywords"))
          "Keywords must be an array of strings"
    ⟨errors.isEmpty, errors⟩

/-! ## `validateGitmodules` (validation.ts, lines 162-246) -/

structure Submodule where
  name : String
  lineNumber : Nat
  path : Option String
  url : Option String
deriving Repr, DecidableEq

structure GitmodulesValidationResult where
  isValid : Bool
  errors : List String
  submodules : List Submodule
deriving Repr, DecidableEq

/-- `line.match(/^\[submodule "(.+)"\]$/)`: the capture is everything
between the literal `[submodule "` prefix and the final `"]`; it must be
non-empty and free of line terminators (which `.` does not match). -/
def headerMatch (line : List Char) : Option (List Char) :=
  match stripPre "[submodule \"".data line with
  | none => none
  | some rest =>
    match rest.reverse with
    | ']' :: '\"' :: midRev =>
      let mid := midRev.reverse
      if mid.isEmpty then none
      else if mid.any isLineTerm then none
      else some mid
    | _ => none

/-- `line.match(/^key\s*=\s*(.+)$/)`: the greedy `\s*` absorbs the
whitespace after `=`, so the capture starts at the first non-whitespace
character and runs to the end of the line; it must be non-empty and free
of line terminators. -/
def assignMatch (key : List Char) (line : List Char) : Option (List Char) :=
  match stripPre key line with
  | none => none
  | some r1 =>
    match r1.dropWhile jsWs with
    | '=' :: r2 =>
      let v := r2.dropWhile jsWs
      if v.isEmpty then none
      else if v.any isLineTerm then none
      else some v
    | _ => none

/-- `line.match(/^path\s*=\s*(.+)$/)`. -/
def pathMatch (line : List Char) : Option (List Char) :=
  assignMatch "path".data line

/-- `line.match(/^url\s*=\s*(.+)$/)`. -/
def urlMatch (line : List Char) : Option (List Char) :=
  assignMatch "url".data line

def headerErrMsg (n : Nat) (line : List Char) : String :=
  "Invalid section header at line " ++ toString n ++ ": " ++ String.mk line

def propErrMsg (n : Nat) (line : List Char) : String :=
  "Invalid property at line " ++ toString n ++ ": " ++ String.mk line

def missingPathMsg (name : String) : String :=
  "Submodule \"" ++ name ++ "\" missing path property"

def missingUrlMsg (name : String) : String :=
  "Submodule \"" ++ name ++ "\" missing url property"

def badUrlMsg (name url : String) : String :=
  "Submodule \"" ++ name ++ "\" has invalid URL format: " ++ url

/-- The line-scanning loop of `validateGitmodules`.  `i` is the 0-based
index of the current line among the trimmed non-blank lines;
`currentSubmodule` is the open section.  Returns the submodule list (in
closing order, the open section flushed at end of input) and the scan
errors (in line order). -/
def gmScan : Nat → Option Submodule → List (List Char) → List Submodule × List String
  | _, currentSubmodule, [] => (currentSubmodule.toList, [])
  | i, currentSubmodule, line :: rest =>
    match headerMatch line with
    | some nm =>
      let r := gmScan (i + 1) (some ⟨String.mk nm, i + 1, none, none⟩) rest
      (currentSubmodule.toList ++ r.1, r.2)
    | none =>
      match currentSubmodule with
      | some s =>
        match pathMatch line with
        | some v => gmScan (i + 1) (some { s with path := some (String.mk (trimChars v)) }) rest
        | none =>
          match urlMatch line with
          | some v => gmScan (i + 1) (some { s with url := some (String.mk (trimChars v)) }) rest
          | none =>
            if line.head? = some '[' then
              let r := gmScan (i + 1) (some s) rest
              (r.1, headerErrMsg (i + 1) line :: r.2)
            else if line.head? = some '#' then
              gmScan (i + 1) (some s) rest
            else
              let r := gmScan (i + 1) (some s) rest
              (r.1, propErrMsg (i + 1) line :: r.2)
      | none =>
        if line.head? = some '[' then
          let r := gmScan (i + 1) none rest
          (r.1, headerErrMsg (i + 1) line :: r.2)
        else
          gmScan (i + 1) none rest

/-- JavaScript falsiness of a nullable string field (`null` or `""`). -/
def optFalsy : Option String → Bool
  | none => true
  | some v => v == ""

/-- `url.match(/^(https?:\/\/|git@|ssh:\/\/)/)` is non-null: the url
starts with `http://`, `https://`, `git@` or `ssh://`. -/
def goodScheme (u : String) : Bool :=
  (stripPre "http://".data u.data).isSome ||
  (stripPre "https://".data u.data).isSome ||
  (stripPre "git@".data u.data).isSome ||
  (stripPre "ssh://".data u.data).isSome

/-- The URL-format check of the semantic loop (runs only on a truthy url). -/
def urlFormatErrors (s : Submodule) : List String :=
  match s.url with
  | some u => if !(u == "") && !goodScheme u then [badUrlMsg s.name u] else []
  | none => []

/-- The per-submodule semantic checks: missing path, missing url, URL
scheme. -/
def semErrors (s : Submodule) : List String :=
  errIf (optFalsy s.path) (missingPathMsg s.name)
  ++ errIf (optFalsy s.url) (missingUrlMsg s.name)
  ++ urlFormatErrors s

/-- `validateGitmodules` from validation.ts: line-oriented scan of the raw
`.gitmodules` text followed by per-submodule semantic checks.  Total by
construction (the source never throws and always returns a result
object). -/
def validateGitmodules (gitmodules : String) : GitmodulesValidationResult :=
  let lines := prepLines gitmodules.data
  let p := gmScan 0 none lines
  let errors := p.2 ++ p.1.flatMap semErrors
  ⟨errors.isEmpty, errors, p.1⟩

/-! ## Selection engine (cli.ts, lines 360-398)

The registry is the parsed `extensions.toml`: an ordered mapping from
extension id to entry (`ExtensionsToml` in types.ts declares `version` as a
required string).  The published index is the
`Map<string, Set<string>>` built from the blob store listing. -/

structure ExtensionInfo where
  version : String
  submodule : Option String := none
  path : Option String := none
deriving Repr, DecidableEq

abbrev ExtensionsToml := List (String × ExtensionInfo)

abbrev PublishedIndex := List (String × List String)

/-- `mainExtensionsToml[extensionId]` (first binding). -/
def lookupEntry (toml : ExtensionsToml) (id : String) : Option ExtensionInfo :=
  (toml.find? fun p => p.1 == id).map Prod.snd

/-- `publishedExtensionVersions.get(extensionId)`. -/
def lookupVersions (published : PublishedIndex) (id : String) : Option (List String) :=
  (published.find? fun p => p.1 == id).map Prod.snd

/-- `unpublishedExtensionIds` from cli.ts: keep, in registry order, each id
whose published version set is absent or lacks the current version. -/
def unpublishedExtensionIds (extensionsToml : ExtensionsToml)
    (publishedExtensionVersions : PublishedIndex) : List String :=
  extensionsToml.filterMap fun p =>
    match lookupVersions publishedExtensionVersions p.1 with
    | none => some p.1
    | some versions => if versions.contains p.2.version then none else some p.1

/-- `changedExtensionIds` from cli.ts: keep, in registry order, each id
whose entry in the reference snapshot is absent or has a different
version. -/
def changedExtensionIds (extensionsToml mainExtensionsToml : ExtensionsToml) : List String :=
  extensionsToml.filterMap fun p =>
    match lookupEntry mainExtensionsToml p.1 with
    | some m => if m.version == p.2.version then none else some p.1
    | none => some p.1

/-- The spec's version set of an id in the published index (empty when the
id is absent). -/
def publishedVersionSet (published : PublishedIndex) (id : String) : List String :=
  (lookupVersions published id).getD []

/-- Publish-mode selection stated in the spec's words: the set-difference
keyed by (id, version) pairs, in registry order. -/
def unpublishedSpec (toml : ExtensionsToml) (published : PublishedIndex) : List String :=
  (toml.filter fun p => !(publishedVersionSet published p.1).contains p.2.version).map Prod.fst

/-- Changed-mode selection stated in the spec's words: ids whose version
differs between the snapshots or that exist only in the current one, in
registry order. -/
def changedSpec (toml ref : ExtensionsToml) : List String :=
  (toml.filter fun p => !((lookupEntry ref p.1).map ExtensionInfo.version == some p.2.version)).map Prod.fst

/-! ## Canonical sorter

`sortExtensionsToml` (src/lib/extensions-toml.js) and `sortGitmodules`
(src/lib/git.js) are imported by cli.ts but their files are not part of
src/; both are modelled from the spec (§4.3). -/

/-- Registry canonical order: by id, ordinary lexicographic comparison of
the character sequences, ascending (codepoint order coincides with byte
order for UTF-8). -/
def regLe (a b : String × ExtensionInfo) : Prop := a.1.data ≤ b.1.data

instance : DecidableRel regLe := fun a b => inferInstanceAs (Decidable (a.1.data ≤ b.1.data))

instance : IsTotal (String × ExtensionInfo) regLe := ⟨fun a b => le_total a.1.data b.1.data⟩

instance : IsTrans (String × ExtensionInfo) regLe := ⟨fun _ _ _ => le_trans⟩

/-- Modelled from the spec: `sortExtensionsToml` (absent from src/)
re-parses the registry, sorts the entries by id using ordinary
lexicographic comparison ascending, and rewrites; modelled on the parsed
registry since the TOML text syntax is handled by an external library. -/
def sortRegistryEntries (registry : ExtensionsToml) : ExtensionsToml :=
  registry.insertionSort regLe

/-- Gitmodules canonical order: by path, ordinary lexicographic comparison
of the character sequences, ascending. -/
def subLe (a b : Submodule) : Prop := (a.path.getD "").data ≤ (b.path.getD "").data

instance : DecidableRel subLe := fun a b =>
  inferInstanceAs (Decidable ((a.path.getD "").data ≤ (b.path.getD "").data))

instance : IsTotal Submodule subLe :=
  ⟨fun a b => le_total (a.path.getD "").data (b.path.getD "").data⟩

instance : IsTrans Submodule subLe := ⟨fun _ _ _ => le_trans⟩

def sortSubmodules (subs : List Submodule) : List Submodule :=
  subs.insertionSort subLe

/-- The serialized lines of one submodule block (spec §4.2: one
`[submodule "name"]` block per entry with two-space-indented
`path = `/`url = ` assignment lines). -/
def subLines (s : Submodule) : List (List Char) :=
  [ "[submodule \"".data ++ s.name.data ++ "\"]".data,
    "  path = ".data ++ (s.path.getD "").data,
    "  url = ".data ++ (s.url.getD "").data ]

/-- Join lines with a newline separator (no trailing newline). -/
def joinNl : List (List Char) → List Char
  | [] => []
  | [l] => l
  | l :: ls => l ++ '\n' :: joinNl ls

/-- Modelled from the spec: serialization of an ordered submodule sequence
(§4.2). -/
def serializeGitmodules (subs : List Submodule) : String :=
  String.mk (joinNl (subs.flatMap subLines))

/-- Modelled from the spec: `sortGitmodules` (absent from src/) fails with
the validation errors when the file fails validation (§4.3), otherwise
re-parses, sorts the submodule sections by path, and rewrites the
canonical text. -/
def sortGitmodulesText (text : String) : Option String :=
  let r := validateGitmodules text
  if r.isValid then some (serializeGitmodules (sortSubmodules r.submodules)) else none

/-! ## Spec-side reference definitions for the scan errors -/

/-- Classification of one scanned line: a bracketed line that is not a
submodule header is an invalid section header anywhere; any other line
that is no header, no `path`/`url` assignment and no `#` comment is an
invalid property when a section is open (`started`). -/
def lineScanError (started : Bool) (n : Nat) (line : List Char) : Option String :=
  if (headerMatch line).isSome then none
  else if line.head? = some '[' then some (headerErrMsg n line)
  else if started && (pathMatch line).isNone && (urlMatch line).isNone
         && !(line.head? = some '#') then some (propErrMsg n line)
  else none

/-- Whether some line before position `i` (in the trimmed non-blank line
sequence) is a submodule section header. -/
def startedB (lines : List (List Char)) (i : Nat) : Bool :=
  (lines.take i).any fun l => (headerMatch l).isSome

/-- The scan errors stated positionally: for each index `j` into the
trimmed non-blank lines, the classification of that line, with the
reported number `j + 1` and "inside a section" meaning that some earlier
line of the sequence is a submodule header. -/
def scanErrorsRef (lines : List (List Char)) : List String :=
  (List.range lines.length).filterMap fun j =>
    lines[j]?.bind fun line => lineScanError (startedB lines j) (j + 1) line

/-- Helper recursion equivalent to the error component of the scan:
`b` records whether a section is open. -/
def refErrs : List (List Char) → Nat → Bool → List String
  | [], _, _ => []
  | line :: rest, i, b =>
    (lineScanError b (i + 1) line).toList
      ++ refErrs rest (i + 1) (b || (headerMatch line).isSome)

/-- A fixed manifest except for its version, as in the spec's example. -/
def mkManifest (v : String) : JVal :=
  .obj [("name", .str "x"), ("version", .str v), ("description", .str "d")]

/-! ## Well-formedness facts used for the round trip of the sorter -/

/-- No line terminators (so regex `.` matches every character and the
serialized block stays on its lines). -/
def goodChars (l : List Char) : Prop := ∀ c ∈ l, isLineTerm c = false

/-- A parsed assignment value: non-empty, no surrounding whitespace, no
line terminators. -/
def goodVal (l : List Char) : Prop :=
  l ≠ [] ∧ (∀ c, l.head? = some c → jsWs c = false) ∧
  (∀ c, l.getLast? = some c → jsWs c = false) ∧ goodChars l

/-- A submodule whose serialized block re-parses to the same data: a
non-empty terminator-free name and present, well-formed path and url. -/
def ReadySub (s : Submodule) : Prop :=
  s.name.data ≠ [] ∧ goodChars s.name.data ∧
  ∃ p u, s.path = some p ∧ s.url = some u ∧ goodVal p.data ∧ goodVal u.data

/-- The submodule list produced by re-parsing a serialized sequence: same
data, line numbers renumbered to the block positions. -/
def renumber : List Submodule → Nat → List Submodule
  | [], _ => []
  | s :: L, i => ⟨s.name, i + 1, s.path, s.url⟩ :: renumber L (i + 3)

/-- Invariant of every submodule the scan produces: non-empty
terminator-free name, and any assigned path or url is a well-formed
value. -/
def GoodPartial (s : Submodule) : Prop :=
  s.name.data ≠ [] ∧ goodChars s.name.data ∧
  (∀ p, s.path = some p → goodVal p.data) ∧
  (∀ u, s.url = some u → goodVal u.data)

/-- The serialized block of a submodule after line trimming, as the
re-parse sees it. -/
def trimmedSubLines (s : Submodule) : List (List Char) :=
  [ "[submodule \"".data ++ s.name.data ++ "\"]".data,
    "path = ".data ++ (s.path.getD "").data,
    "url = ".data ++ (s.url.getD "").data ]

/-! # Theorems -/

/-! ## Selection engine lemmas -/

theorem unpublished_eq (reg : ExtensionsToml) (idx : PublishedIndex) :
    unpublishedExtensionIds reg idx = unpublishedSpec reg idx := by
  induction reg with
  | nil => rfl
  | cons p rest ih =>
    simp only [unpublishedExtensionIds, unpublishedSpec, List.filterMap_cons,
      List.filter_cons] at ih ⊢
    cases h : lookupVersions idx p.1 with
    | none => simpa [publishedVersionSet, h] using ih
    | some versions =>
      by_cases hc : p.2.version ∈ versions
      · simpa [publishedVersionSet, h, hc] using ih
      · simpa [publishedVersionSet, h, hc] using ih

theorem changed_eq (cur ref : ExtensionsToml) :
    changedExtensionIds cur ref = changedSpec cur ref := by
  induction cur with
  | nil => rfl
  | cons p rest ih =>
    simp only [changedExtensionIds, changedSpec, List.filterMap_cons,
      List.filter_cons] at ih ⊢
    cases h : lookupEntry ref p.1 with
    | none => simpa [h] using ih
    | some m =>
      by_cases hv : m.version = p.2.version
      · simpa [h, hv] using ih
      · simpa [h, hv] using ih

theorem changed_subset_current (cur ref : ExtensionsToml) :
    (changedExtensionIds cur ref).all (fun id => (cur.map Prod.fst).contains id) = true := by
  rw [List.all_eq_true]
  intro id hid
  obtain ⟨p, hp, he⟩ := List.mem_filterMap.mp hid
  have hid' : id = p.1 := by
    cases h : lookupEntry ref p.1 with
    | none => rw [h] at he; exact (Option.some_inj.mp he).symm
    | some m =>
      rw [h] at he
      cases hv : (m.version == p.2.version) with
      | true => simp [hv] at he
      | false => simp only [hv] at he; simpa using he.symm
  subst hid'
  simp only [List.contains_eq_any_beq, List.any_eq_true]
  exact ⟨p.1, List.mem_map_of_mem Prod.fst hp, by simp⟩

/-- C2.  `unpublishedExtensionIds` is the publish-mode selection of the
spec: in registry order, exactly the ids whose current version is absent
from the published index's version set for that id (ids absent from the
index included); on the spec's example the result is `[b]`, and a
previously published id with a new version is still selected. -/
theorem claim_C2 :
    (∀ (reg : ExtensionsToml) (idx : PublishedIndex),
      unpublishedExtensionIds reg idx = unpublishedSpec reg idx)
    ∧ unpublishedExtensionIds
        [("a", ⟨"v1.0.0", none, none⟩), ("b", ⟨"v2.0.0", none, none⟩)]
        [("a", ["v1.0.0"])] = ["b"]
    ∧ unpublishedExtensionIds
        [("a", ⟨"v1.1.0", none, none⟩)] [("a", ["v1.0.0"])] = ["a"] :=
  ⟨unpublished_eq, by decide, by decide⟩

/-- C3.  `changedExtensionIds` is the changed-mode selection of the spec:
in registry order, exactly the ids whose version differs between the two
snapshots or that exist only in the current snapshot; every selected id is
an id of the current snapshot (so ids present only in the reference are
never selected); on the spec's example the result is `[a]`. -/
theorem claim_C3 :
    (∀ (cur ref : ExtensionsToml), changedExtensionIds cur ref = changedSpec cur ref)
    ∧ (∀ (cur ref : ExtensionsToml),
        (changedExtensionIds cur ref).all (fun id => (cur.map Prod.fst).contains id) = true)
    ∧ changedExtensionIds
        [("a", ⟨"v1.1.0", none, none⟩), ("b", ⟨"v2.0.0", none, none⟩)]
        [("a", ⟨"v1.0.0", none, none⟩), ("b", ⟨"v2.0.0", none, none⟩)] = ["a"] :=
  ⟨changed_eq, changed_subset_current, by decide⟩

/-! ## `validateExtensionsToml`: C1 and C10 -/

/-- C1.  The registry object `{"my-cool-extension": {}}`, whose only key
matches the ID pattern, is rejected by `validateExtensionsToml` with
"Missing or invalid extensions section" (the repository's own test
expects this input not to throw), while a registry containing the key
"BadExtension" is rejected with the message naming that exact id. -/
theorem claim_C1_bug :
    validateExtensionsToml (.obj [("my-cool-extension", .obj [])])
      = .error "Missing or invalid extensions section"
    ∧ validateExtensionsToml (.obj [("BadExtension", .obj [])])
      = .error "Extension IDs must only consist of lowercase letters, numbers, and hyphens ('-'): \"BadExtension\"." :=
  ⟨rfl, rfl⟩

/-! ## `validateManifest`: C8 and C9 -/

theorem mem_errIf {x m : String} {b : Bool} : x ∈ errIf b m ↔ b = true ∧ x = m := by
  cases b <;> simp [errIf]

/-- The error list of `validateManifest` on an object input, laid out as
the concatenation of its checks (definitional). -/
theorem validateManifest_obj_errors (l : List (String × JVal)) :
    (validateManifest (.obj l)).errors =
      requiredFieldErrs (.obj l)
      ++ errIf (truthy (jsGet (.obj l) "name") && !idPat (jsToStr (jsGet (.obj l) "name")))
          "Manifest name must contain only lowercase letters, numbers, and hyphens"
      ++ errIf (truthy (jsGet (.obj l) "version") && !semverTest (jsToStr (jsGet (.obj l) "version")))
          "Version must follow semantic versioning format (e.g., 1.0.0 or 1.0.0-beta.1)"
      ++ errIf (truthy (jsGet (.obj l) "author") && !isStr (jsGet (.obj l) "author"))
          "Author must be a string"
      ++ errIf (truthy (jsGet (.obj l) "license") && !isStr (jsGet (.obj l) "license"))
          "License must be a string"
      ++ errIf (truthy (jsGet (.obj l) "repository") && !isStr (jsGet (.obj l) "repository"))
          "Repository must be a string"
      ++ errIf (truthy (jsGet (.obj l) "keywords") && !isStrArray (jsGet (.obj l) "keywords"))
          "Keywords must be an array of strings" := rfl

theorem validateManifest_obj_isValid (l : List (String × JVal)) :
    (validateManifest (.obj l)).isValid = (validateManifest (.obj l)).errors.isEmpty := rfl

theorem mem_requiredFieldErrs {x : String} {m : JVal} (h : x ∈ requiredFieldErrs m) :
    x = "Missing or invalid required field: name" ∨
    x = "Missing or invalid required field: version" ∨
    x = "Missing or invalid required field: description" := by
  obtain ⟨a, ha, hfa⟩ := List.mem_filterMap.mp h
  have hx : x = "Missing or invalid required field: " ++ a := by
    split at hfa
    · exact absurd hfa (by simp)
    · exact (Option.some_inj.mp hfa).symm
  subst hx
  simp only [requiredFieldErrs, List.mem_cons, List.not_mem_nil, or_false] at ha
  rcases ha with rfl | rfl | rfl
  · left; rfl
  · right; left; rfl
  · right; right; rfl

theorem manifest_isValid_eq_semver (v : String) :
    (validateManifest (mkManifest v)).isValid = semverTest v := by
  have e : mkManifest v
      = JVal.obj [("name", .str "x"), ("version", .str v), ("description", .str "d")] := rfl
  by_cases hv : v = ""
  · subst hv; rfl
  · have hvb : (v != "") = true := by simpa using hv
    rw [e, validateManifest_obj_isValid, validateManifest_obj_errors]
    have hreq : requiredFieldErrs
        (JVal.obj [("name", .str "x"), ("version", .str v), ("description", .str "d")]) = [] := by
      simp only [requiredFieldErrs, List.filterMap_cons, List.filterMap_nil]
      have h1 : jsGet (mkManifest v) "name" = .str "x" := rfl
      have h2 : jsGet (mkManifest v) "version" = .str v := rfl
      have h3 : jsGet (mkManifest v) "description" = .str "d" := rfl
      rw [e] at h1 h2 h3
      rw [h1, h2, h3]
      simp [truthy, isStr, hvb]
    rw [hreq]
    have h1 : jsGet (mkManifest v) "name" = .str "x" := rfl
    have h2 : jsGet (mkManifest v) "version" = .str v := rfl
    have h4 : jsGet (mkManifest v) "author" = .undefined := rfl
    have h5 : jsGet (mkManifest v) "license" = .undefined := rfl
    have h6 : jsGet (mkManifest v) "repository" = .undefined := rfl
    have h7 : jsGet (mkManifest v) "keywords" = .undefined := rfl
    rw [e] at h1 h2 h4 h5 h6 h7
    rw [h1, h2, h4, h5, h6, h7]
    have hx : idPat "x" = true := by decide
    cases hsv : semverTest v <;>
      simp [truthy, isStr, errIf, hx, jsToStr, semverTest, hvb, hsv] <;>
      simpa [semverTest] using hsv

/-- C8.  `validateManifest` accepts a version string exactly when it
matches `^\d+\.\d+\.\d+(-[A-Za-z0-9.-]+)?$` (for the fixed valid manifest
`{name: "x", version: v, description: "d"}` the result is valid iff `v`
matches; the empty string fails via the required-field check and also does
not match); on `{name: "x", version: "1.0", description: "d"}` it returns,
without throwing, `isValid: false` with exactly the version-format
error. -/
theorem claim_C8 :
    (∀ v : String, (validateManifest (mkManifest v)).isValid = semverTest v)
    ∧ validateManifest (mkManifest "1.0")
        = ⟨false, ["Version must follow semantic versioning format (e.g., 1.0.0 or 1.0.0-beta.1)"]⟩ :=
  ⟨manifest_isValid_eq_semver, by decide⟩

/-- C9 counterexample.  A manifest whose `authors` field is a number (not
an array of strings) passes `validateManifest` with no errors: the
declared optional field `authors` is never type-checked (the code probes
`author` instead). -/
theorem claim_C9_counterexample :
    validateManifest (.obj [("name", .str "x"), ("version", .str "1.0.0"),
      ("description", .str "d"), ("authors", .num 42)]) = ⟨true, []⟩ := by decide

/-- C9 as amended.  On any object input, `validateManifest` type-checks the
optional fields `author` (singular), `license` and `repository` as strings
and `keywords` as an array of strings, when present (truthy): the
corresponding error message is reported exactly when the field is truthy
and wrongly typed, all violations are collected independently, and the
result is valid exactly when no error was collected. -/
theorem claim_C9_amended (l : List (String × JVal)) :
    ("Author must be a string" ∈ (validateManifest (.obj l)).errors
      ↔ (truthy (jsGet (.obj l) "author") && !isStr (jsGet (.obj l) "author")) = true)
    ∧ ("License must be a string" ∈ (validateManifest (.obj l)).errors
      ↔ (truthy (jsGet (.obj l) "license") && !isStr (jsGet (.obj l) "license")) = true)
    ∧ ("Repository must be a string" ∈ (validateManifest (.obj l)).errors
      ↔ (truthy (jsGet (.obj l) "repository") && !isStr (jsGet (.obj l) "repository")) = true)
    ∧ ("Keywords must be an array of strings" ∈ (validateManifest (.obj l)).errors
      ↔ (truthy (jsGet (.obj l) "keywords") && !isStrArray (jsGet (.obj l) "keywords")) = true)
    ∧ ((validateManifest (.obj l)).isValid = true ↔ (validateManifest (.obj l)).errors = []) := by
  have hA : "Author must be a string" ∉ requiredFieldErrs (.obj l) := fun h => by
    rcases mem_requiredFieldErrs h with h | h | h <;> exact absurd h (by decide)
  have hL : "License must be a string" ∉ requiredFieldErrs (.obj l) := fun h => by
    rcases mem_requiredFieldErrs h with h | h | h <;> exact absurd h (by decide)
  have hR : "Repository must be a string" ∉ requiredFieldErrs (.obj l) := fun h => by
    rcases mem_requiredFieldErrs h with h | h | h <;> exact absurd h (by decide)
  have hK : "Keywords must be an array of strings" ∉ requiredFieldErrs (.obj l) := fun h => by
    rcases mem_requiredFieldErrs h with h | h | h <;> exact absurd h (by decide)
  refine ⟨?_, ?_, ?_, ?_, ?_⟩
  · rw [validateManifest_obj_errors]; simp [List.mem_append, mem_errIf, hA]
  · rw [validateManifest_obj_errors]; simp [List.mem_append, mem_errIf, hL]
  · rw [validateManifest_obj_errors]; simp [List.mem_append, mem_errIf, hR]
  · rw [validateManifest_obj_errors]; simp [List.mem_append, mem_errIf, hK]
  · rw [validateManifest_obj_isValid, List.isEmpty_iff]

theorem checkTopKeys_ok_iff (ks : List String) :
    checkTopKeys ks = .ok () ↔ ∀ k ∈ ks, idPat k = true := by
  induction ks with
  | nil => simp [checkTopKeys]
  | cons k ks ih =>
    by_cases h : idPat k = true
    · simp [checkTopKeys, h, ih]
    · simp [checkTopKeys, h]

theorem checkEntry_ok_iff (k : String) (x : JVal) :
    checkEntry k x = .ok () ↔
      idPat k = true ∧ (truthy x && isObjectType x) = true
      ∧ (truthy (jsGet x "version") && isStr (jsGet x "version")) = true
      ∧ (truthy (jsGet x "source") && isStr (jsGet x "source")) = true := by
  unfold checkEntry
  cases hb1 : idPat k <;> cases hb2 : (truthy x && isObjectType x) <;>
    cases hb3 : (truthy (jsGet x "version") && isStr (jsGet x "version")) <;>
    cases hb4 : (truthy (jsGet x "source") && isStr (jsGet x "source")) <;>
    simp [hb1, hb2, hb3, hb4]

theorem checkEntries_ok_iff (l : List (String × JVal)) :
    checkEntries l = .ok () ↔ ∀ p ∈ l, checkEntry p.1 p.2 = .ok () := by
  induction l with
  | nil => simp [checkEntries]
  | cons p rest ih =>
    obtain ⟨k, x⟩ := p
    cases h : checkEntry k x with
    | error e => simp [checkEntries, h]
    | ok u => obtain ⟨⟩ := u; simp [checkEntries, h, ih]

/-- C10.  `validateExtensionsToml` requires a top-level `extensions` key
holding an object: whenever every top-level key matches the ID pattern but
the `extensions` property is not a truthy object value, it throws exactly
"Missing or invalid extensions section"; and whenever it succeeds, the
`extensions` property is a truthy object value and every nested entry
passes its checks (pattern-matching id, object-typed entry, truthy string
`version` and `source`). -/
theorem claim_C10 :
    (∀ l : List (String × JVal),
      (∀ k ∈ l.map Prod.fst, idPat k = true) →
      (truthy (jsGet (.obj l) "extensions") && isObjectType (jsGet (.obj l) "extensions")) = false →
      validateExtensionsToml (.obj l) = .error "Missing or invalid extensions section")
    ∧ (∀ t : JVal, validateExtensionsToml t = .ok () →
        (truthy (jsGet t "extensions") && isObjectType (jsGet t "extensions")) = true
        ∧ ∀ p ∈ jsEntries (jsGet t "extensions"),
            idPat p.1 = true ∧ (truthy p.2 && isObjectType p.2) = true
            ∧ (truthy (jsGet p.2 "version") && isStr (jsGet p.2 "version")) = true
            ∧ (truthy (jsGet p.2 "source") && isStr (jsGet p.2 "source")) = true) := by
  constructor
  · intro l hkeys hext
    have hk : checkTopKeys (jsKeys (.obj l)) = .ok () :=
      (checkTopKeys_ok_iff _).mpr (by simpa [jsKeys, jsEntries] using hkeys)
    unfold validateExtensionsToml
    rw [show (!(truthy (JVal.obj l) && isObjectType (JVal.obj l))) = false from rfl]
    simp only [Bool.false_eq_true, if_false, hk, hext]
    rfl
  · intro t hok
    unfold validateExtensionsToml at hok
    split at hok
    · exact absurd hok (by simp)
    · revert hok
      cases checkTopKeys (jsKeys t) with
      | error e => intro hok; exact absurd hok (by simp)
      | ok u =>
        obtain ⟨⟩ := u
        simp only
        split
        · intro hok; exact absurd hok (by simp)
        · rename_i hcond
          intro hok
          refine ⟨by simpa using hcond, fun p hp => ?_⟩
          have := (checkEntries_ok_iff _).mp hok p hp
          exact (checkEntry_ok_iff p.1 p.2).mp this

/-- Witness for C10 at concrete inputs: a registry with only the valid key
`a` is rejected with the missing-section error, and a registry whose
`extensions` section holds one well-formed entry passes all the nested
checks. -/
theorem claim_C10_witness :
    validateExtensionsToml (.obj [("a", .obj [])]) = .error "Missing or invalid extensions section"
    ∧ ((truthy (jsGet (.obj [("extensions",
          .obj [("a", .obj [("version", .str "1.0.0"), ("source", .str "s")])])]) "extensions")
        && isObjectType (jsGet (.obj [("extensions",
          .obj [("a", .obj [("version", .str "1.0.0"), ("source", .str "s")])])]) "extensions")) = true) :=
  ⟨claim_C10.1 [("a", .obj [])] (by intro k hk; simp at hk; subst hk; decide) rfl,
   (claim_C10.2 (.obj [("extensions",
      .obj [("a", .obj [("version", .str "1.0.0"), ("source", .str "s")])])]) rfl).1⟩

/-! ## `validateGitmodules`: C5, C6, C7 -/

theorem validateGitmodules_submodules (text : String) :
    (validateGitmodules text).submodules = (gmScan 0 none (prepLines text.data)).1 := rfl

theorem validateGitmodules_errors (text : String) :
    (validateGitmodules text).errors
      = (gmScan 0 none (prepLines text.data)).2
        ++ (gmScan 0 none (prepLines text.data)).1.flatMap semErrors := rfl

theorem validateGitmodules_isValid (text : String) :
    (validateGitmodules text).isValid = (validateGitmodules text).errors.isEmpty := rfl

/-- A semantic error of a parsed submodule appears among the returned
errors. -/
theorem sem_mem_errors {text : String} {s : Submodule} {x : String}
    (hs : s ∈ (validateGitmodules text).submodules) (hx : x ∈ semErrors s) :
    x ∈ (validateGitmodules text).errors := by
  rw [validateGitmodules_errors]
  refine List.mem_append_right _ ?_
  rw [validateGitmodules_submodules] at hs
  exact List.mem_flatMap.mpr ⟨s, hs, hx⟩

theorem mem_errors_invalid {text : String} {x : String}
    (hx : x ∈ (validateGitmodules text).errors) :
    (validateGitmodules text).isValid = false := by
  rw [validateGitmodules_isValid]
  rcases h : (validateGitmodules text).errors with _ | ⟨y, ys⟩
  · rw [h] at hx; exact absurd hx (List.not_mem_nil x)
  · rfl

/-- C5.  `validateGitmodules` is total (it never throws, by construction of
the embedding) and returns a coherent result object: the result is valid
exactly when no error was collected, and every parsed submodule that ends
up without a `path` (resp. without a `url`) contributes an error naming
that submodule, making the result invalid. -/
theorem claim_C5 (text : String) :
    ((validateGitmodules text).isValid = true ↔ (validateGitmodules text).errors = [])
    ∧ ∀ s ∈ (validateGitmodules text).submodules,
        (s.path = none →
          missingPathMsg s.name ∈ (validateGitmodules text).errors
          ∧ (validateGitmodules text).isValid = false)
        ∧ (s.url = none →
          missingUrlMsg s.name ∈ (validateGitmodules text).errors
          ∧ (validateGitmodules text).isValid = false) := by
  refine ⟨by rw [validateGitmodules_isValid, List.isEmpty_iff], fun s hs => ⟨fun hp => ?_, fun hu => ?_⟩⟩
  · have hmem : missingPathMsg s.name ∈ semErrors s := by
      simp [semErrors, errIf, optFalsy, hp]
    exact ⟨sem_mem_errors hs hmem, mem_errors_invalid (sem_mem_errors hs hmem)⟩
  · have hmem : missingUrlMsg s.name ∈ semErrors s := by
      simp [semErrors, errIf, optFalsy, hu]
    exact ⟨sem_mem_errors hs hmem, mem_errors_invalid (sem_mem_errors hs hmem)⟩

/-- Witness for C5: the one-line input `[submodule "a"]` produces a
submodule with no path, the missing-path error is reported and the result
is invalid. -/
theorem claim_C5_witness :
    missingPathMsg "a" ∈ (validateGitmodules "[submodule \"a\"]").errors
    ∧ (validateGitmodules "[submodule \"a\"]").isValid = false :=
  ((claim_C5 "[submodule \"a\"]").2 ⟨"a", 1, none, none⟩ (by decide)).1 rfl

/-- C6 counterexample.  A submodule whose url is
`http://example.com/r.git` — beginning with none of `https://`, `git@`,
`ssh://` — is accepted by `validateGitmodules` with no error: the source
regex `^(https?:\/\/|git@|ssh:\/\/)` also admits plain `http://`. -/
theorem claim_C6_counterexample :
    validateGitmodules "[submodule \"m\"]\npath = p\nurl = http://example.com/r.git"
      = ⟨true, [], [⟨"m", 1, some "p", some "http://example.com/r.git"⟩]⟩ := by decide

/-- C6 as amended.  A parsed submodule's truthy url passes the URL-format
check exactly when it begins with `http://`, `https://`, `git@` or
`ssh://` (`goodScheme`); an empty url is instead reported by the
missing-url check; and whenever the scheme is bad the error identifying
that submodule by name is among the returned errors. -/
theorem claim_C6_amended (text : String) (s : Submodule) (u : String)
    (hs : s ∈ (validateGitmodules text).submodules) (hu : s.url = some u) :
    (urlFormatErrors s = [] ↔ (u = "" ∨ goodScheme u = true))
    ∧ (goodScheme u = false → u ≠ "" →
        badUrlMsg s.name u ∈ (validateGitmodules text).errors) := by
  constructor
  · cases hb : (u == "") <;> cases hg : goodScheme u <;>
      simp_all [urlFormatErrors, hu]
  · intro hg hne
    have hmem : badUrlMsg s.name u ∈ semErrors s := by
      have hb : (u == "") = false := by simpa using hne
      simp [semErrors, urlFormatErrors, hu, hb, hg]
    exact sem_mem_errors hs hmem

/-- Witness for C6: on a submodule with url `ftp://x` the bad-scheme error
naming the submodule is reported. -/
theorem claim_C6_witness :
    badUrlMsg "m" "ftp://x"
      ∈ (validateGitmodules "[submodule \"m\"]\npath = p\nurl = ftp://x").errors :=
  (claim_C6_amended "[submodule \"m\"]\npath = p\nurl = ftp://x"
      ⟨"m", 1, some "p", some "ftp://x"⟩ "ftp://x" (by decide) rfl).2 (by decide) (by decide)

/-- C7 counterexample.  The top-level line `foo` (no header, no
assignment, no comment, not blank) is reported by nothing — the result is
valid with no errors — and after a blank line the junk line `!!`
(originally at line 3) is reported with line number 2: numbers refer to
the filtered non-blank lines, not the original text. -/
theorem claim_C7_counterexample :
    validateGitmodules "foo" = ⟨true, [], []⟩
    ∧ (validateGitmodules "[submodule \"q\"]\n\n!!\npath = p\nurl = https://h").errors
        = ["Invalid property at line 2: !!"] :=
  ⟨by decide, by decide⟩

theorem stripPre_cons_head {p : Char} {ps l r : List Char}
    (h : stripPre (p :: ps) l = some r) : l.head? = some p := by
  cases l with
  | nil => simp [stripPre] at h
  | cons c cs =>
    by_cases hc : c = p
    · subst hc; rfl
    · simp [stripPre, hc] at h

theorem pathMatch_head {line v : List Char} (h : pathMatch line = some v) :
    line.head? = some 'p' := by
  unfold pathMatch assignMatch at h
  cases hs : stripPre "path".data line with
  | none => rw [hs] at h; exact absurd h (by simp)
  | some r => exact stripPre_cons_head (show stripPre ('p' :: "ath".data) line = some r from hs)

theorem urlMatch_head {line v : List Char} (h : urlMatch line = some v) :
    line.head? = some 'u' := by
  unfold urlMatch assignMatch at h
  cases hs : stripPre "url".data line with
  | none => rw [hs] at h; exact absurd h (by simp)
  | some r => exact stripPre_cons_head (show stripPre ('u' :: "rl".data) line = some r from hs)

/-- The error component of the scan only depends on whether a section is
open, recorded by the `b` flag of `refErrs`. -/
theorem gmScan_snd : ∀ (lines : List (List Char)) (i : Nat) (cur : Option Submodule),
    (gmScan i cur lines).2 = refErrs lines i cur.isSome := by
  intro lines
  induction lines with
  | nil => intro i cur; cases cur <;> rfl
  | cons line rest ih =>
    intro i cur
    cases hh : headerMatch line with
    | some nm =>
      have hls : lineScanError cur.isSome (i + 1) line = none := by
        simp [lineScanError, hh]
      simp [gmScan, refErrs, hh, hls, ih]
    | none =>
      cases cur with
      | some s =>
        cases hp : pathMatch line with
        | some v =>
          have hls : lineScanError true (i + 1) line = none := by
            simp [lineScanError, hh, pathMatch_head hp, hp]
          simp [gmScan, refErrs, hh, hp, hls, ih]
        | none =>
          cases hu : urlMatch line with
          | some v =>
            have hls : lineScanError true (i + 1) line = none := by
              simp [lineScanError, hh, urlMatch_head hu, hu]
            simp [gmScan, refErrs, hh, hp, hu, hls, ih]
          | none =>
            by_cases hbr : line.head? = some '['
            · have hls : lineScanError true (i + 1) line = some (headerErrMsg (i + 1) line) := by
                simp [lineScanError, hh, hbr]
              simp [gmScan, refErrs, hh, hp, hu, hbr, hls, ih]
            · by_cases hcm : line.head? = some '#'
              · have hls : lineScanError true (i + 1) line = none := by
                  simp [lineScanError, hh, hbr, hcm, hp, hu]
                simp [gmScan, refErrs, hh, hp, hu, hbr, hcm, hls, ih]
              · have hls : lineScanError true (i + 1) line = some (propErrMsg (i + 1) line) := by
                  simp [lineScanError, hh, hbr, hcm, hp, hu]
                simp [gmScan, refErrs, hh, hp, hu, hbr, hcm, hls, ih]
      | none =>
        by_cases hbr : line.head? = some '['
        · have hls : lineScanError false (i + 1) line = some (headerErrMsg (i + 1) line) := by
            simp [lineScanError, hh, hbr]
          simp [gmScan, refErrs, hh, hbr, hls, ih]
        · have hls : lineScanError false (i + 1) line = none := by
            simp [lineScanError, hh, hbr]
          simp [gmScan, refErrs, hh, hbr, hls, ih]

/-- `refErrs` coincides with the positional description of the scan
errors. -/
theorem refErrs_positional : ∀ (lines : List (List Char)) (i : Nat) (b : Bool),
    refErrs lines i b
      = (List.range lines.length).filterMap fun j =>
          lines[j]?.bind fun line => lineScanError (b || startedB lines j) (i + j + 1) line := by
  intro lines
  induction lines with
  | nil => intro i b; rfl
  | cons x xs ih =>
    intro i b
    have hfun : (fun j => (x :: xs)[j + 1]?.bind fun line =>
          lineScanError (b || startedB (x :: xs) (j + 1)) (i + (j + 1) + 1) line)
        = fun j => xs[j]?.bind fun line =>
            lineScanError ((b || (headerMatch x).isSome) || startedB xs j) ((i + 1) + j + 1) line := by
      funext j
      have h1 : (x :: xs)[j + 1]? = xs[j]? := List.getElem?_cons_succ
      have h2 : startedB (x :: xs) (j + 1) = ((headerMatch x).isSome || startedB xs j) := by
        simp [startedB, List.take_succ_cons]
      rw [h1, h2, Bool.or_assoc]
      have h3 : i + (j + 1) + 1 = (i + 1) + j + 1 := by omega
      rw [h3]
    rw [refErrs, List.length_cons, List.range_succ_eq_map, List.filterMap_cons, List.filterMap_map]
    have h0 : startedB (x :: xs) 0 = false := rfl
    show (lineScanError b (i + 1) x).toList ++ refErrs xs (i + 1) (b || (headerMatch x).isSome) = _
    simp only [Function.comp_def, Nat.succ_eq_add_one]
    rw [hfun, ← ih (i + 1) (b || (headerMatch x).isSome)]
    simp only [h0, Bool.or_false, List.getElem?_cons_zero, Option.some_bind, Nat.add_zero]
    cases hl : lineScanError b (i + 1) x <;> simp [hl]

theorem scanErrorsRef_eq_refErrs (lines : List (List Char)) :
    scanErrorsRef lines = refErrs lines 0 false := by
  rw [refErrs_positional]
  simp [scanErrorsRef]

/-- C7 as amended.  The errors of `validateGitmodules` are exactly the
positional scan errors — for each index `j` into the trimmed non-blank
lines, an invalid-section-header error when the line starts with `[` but
is no submodule header, an invalid-property error when the line is no
header, no `path`/`url` assignment and no `#` comment and some earlier
line of that filtered sequence is a submodule header (so stray non-bracket
lines before the first section are not reported), the reported number
being `j + 1` within the filtered sequence rather than the original
text — followed by the per-submodule semantic errors. -/
theorem claim_C7_amended (text : String) :
    (validateGitmodules text).errors
      = scanErrorsRef (prepLines text.data)
        ++ (validateGitmodules text).submodules.flatMap semErrors := by
  rw [validateGitmodules_errors, validateGitmodules_submodules,
    scanErrorsRef_eq_refErrs, gmScan_snd]
  rfl

/-! ## Character-list lemmas for the canonical-sorter round trip -/

theorem dropWhile_eq_self_of_head {α : Type} {p : α → Bool} {l : List α}
    (h : ∀ c, l.head? = some c → p c = false) : l.dropWhile p = l := by
  cases l with
  | nil => rfl
  | cons c cs => simp [List.dropWhile_cons, h c rfl]

theorem head?_dropWhile_not {α : Type} {p : α → Bool} {l : List α} {c : α}
    (h : (l.dropWhile p).head? = some c) : p c = false := by
  induction l with
  | nil => simp at h
  | cons a as ih =>
    by_cases hp : p a = true
    · rw [List.dropWhile_cons, if_pos hp] at h; exact ih h
    · rw [List.dropWhile_cons, if_neg hp] at h
      obtain rfl : a = c := by simpa using h
      simpa using hp

theorem getLast?_dropWhile {α : Type} {p : α → Bool} {l : List α}
    (h : l.dropWhile p ≠ []) : (l.dropWhile p).getLast? = l.getLast? := by
  conv_rhs => rw [← List.takeWhile_append_dropWhile (p := p) (l := l)]
  rw [List.getLast?_append]
  cases hg : (l.dropWhile p).getLast? with
  | none => exact absurd (List.getLast?_eq_none_iff.mp hg) h
  | some x => rfl

theorem mem_of_mem_dropWhile {α : Type} {p : α → Bool} {l : List α} {c : α}
    (h : c ∈ l.dropWhile p) : c ∈ l :=
  (List.dropWhile_sublist p).subset h

theorem trimRight_eq_self {l : List Char}
    (h : ∀ c, l.getLast? = some c → jsWs c = false) :
    (l.reverse.dropWhile jsWs).reverse = l := by
  have hh : ∀ c, l.reverse.head? = some c → jsWs c = false := by
    intro c hc; exact h c (by rwa [List.head?_reverse] at hc)
  rw [dropWhile_eq_self_of_head hh, List.reverse_reverse]

theorem trimChars_eq_self {l : List Char}
    (h1 : ∀ c, l.head? = some c → jsWs c = false)
    (h2 : ∀ c, l.getLast? = some c → jsWs c = false) : trimChars l = l := by
  unfold trimChars
  rw [dropWhile_eq_self_of_head h1, trimRight_eq_self h2]

theorem goodVal_trimChars {v : List Char} (hne : v ≠ [])
    (hh : ∀ c, v.head? = some c → jsWs c = false) (hg : goodChars v) :
    goodVal (trimChars v) := by
  unfold trimChars
  rw [dropWhile_eq_self_of_head hh]
  have hwne : v.reverse.dropWhile jsWs ≠ [] := by
    intro hnil
    have hall := List.dropWhile_eq_nil_iff.mp hnil
    cases v with
    | nil => exact hne rfl
    | cons c cs =>
      have hc : jsWs c = false := hh c rfl
      have : jsWs c = true := hall c (by simp)
      rw [this] at hc; exact absurd hc (by simp)
  refine ⟨by simpa using hwne, ?_, ?_, ?_⟩
  · intro c hc
    rw [List.head?_reverse, getLast?_dropWhile hwne, List.getLast?_reverse] at hc
    exact hh c hc
  · intro c hc
    rw [List.getLast?_reverse] at hc
    exact head?_dropWhile_not hc
  · intro c hc
    rw [List.mem_reverse] at hc
    exact hg c (List.mem_reverse.mp (mem_of_mem_dropWhile hc))

theorem stripPre_append : ∀ (p l : List Char), stripPre p (p ++ l) = some l
  | [], _ => rfl
  | c :: cs, l => by simp [stripPre, stripPre_append cs l]

/-! ## Matcher lemmas for serialized blocks -/

theorem headerMatch_block {n : List Char} (hne : n ≠ []) (hg : goodChars n) :
    headerMatch ("[submodule \"".data ++ n ++ "\"]".data) = some n := by
  unfold headerMatch
  rw [List.append_assoc]
  have hrev : (n ++ "\"]".data).reverse = ']' :: '\"' :: n.reverse := by
    rw [show ("\"]".data : List Char) = ['\"', ']'] from rfl]
    simp
  simp only [stripPre_append, hrev, List.reverse_reverse]
  have hemp : n.isEmpty = false := by
    cases n with
    | nil => exact absurd rfl hne
    | cons c cs => rfl
  have hany : n.any isLineTerm = false := by
    rw [List.any_eq_false]
    intro c hc
    simp [hg c hc]
  simp only [hemp, hany, Bool.false_eq_true, if_false]

theorem assignMatch_block {key v : List Char} (hv : goodVal v) :
    assignMatch key (key ++ (' ' :: '=' :: ' ' :: v)) = some v := by
  obtain ⟨hne, hh, _, hg⟩ := hv
  unfold assignMatch
  have h1 : (' ' :: '=' :: ' ' :: v).dropWhile jsWs = '=' :: ' ' :: v := by
    rw [List.dropWhile_cons, if_pos (by decide), List.dropWhile_cons, if_neg (by decide)]
  have h2 : (' ' :: v).dropWhile jsWs = v := by
    rw [List.dropWhile_cons, if_pos (by decide), dropWhile_eq_self_of_head hh]
  simp only [stripPre_append, h1, h2]
  have hemp : v.isEmpty = false := by
    cases v with
    | nil => exact absurd rfl hne
    | cons c cs => rfl
  have hany : v.any isLineTerm = false := by
    rw [List.any_eq_false]; intro c hc; simp [hg c hc]
  simp only [hemp, hany, Bool.false_eq_true, if_false]

theorem pathMatch_block {p : List Char} (hp : goodVal p) :
    pathMatch ("path = ".data ++ p) = some p := by
  have : ("path = ".data ++ p : List Char) = "path".data ++ (' ' :: '=' :: ' ' :: p) := rfl
  rw [pathMatch, this, assignMatch_block hp]

theorem urlMatch_block {u : List Char} (hu : goodVal u) :
    urlMatch ("url = ".data ++ u) = some u := by
  have : ("url = ".data ++ u : List Char) = "url".data ++ (' ' :: '=' :: ' ' :: u) := rfl
  rw [urlMatch, this, assignMatch_block hu]

/-! ## What the matchers guarantee about their output -/

theorem headerMatch_good {line nm : List Char} (h : headerMatch line = some nm) :
    nm ≠ [] ∧ goodChars nm := by
  unfold headerMatch at h
  cases hs : stripPre "[submodule \"".data line with
  | none => rw [hs] at h; exact absurd h (by simp)
  | some rest =>
    simp only [hs] at h
    match hrev : rest.reverse with
    | [] => simp only [hrev] at h; exact absurd h (by simp)
    | [c] =>
      simp only [hrev] at h
      by_cases hc : c = ']' <;> simp [hc] at h
    | c :: d :: midRev =>
      simp only [hrev] at h
      by_cases hc : c = ']'
      · subst hc
        by_cases hd : d = '\"'
        · subst hd
          simp only at h
          by_cases hemp : midRev.reverse.isEmpty
          · rw [if_pos hemp] at h; exact absurd h (by simp)
          · rw [if_neg hemp] at h
            by_cases hany : midRev.reverse.any isLineTerm
            · rw [if_pos hany] at h; exact absurd h (by simp)
            · rw [if_neg hany] at h
              obtain rfl : midRev.reverse = nm := by simpa using h
              constructor
              · intro hnil; rw [hnil] at hemp; exact hemp rfl
              · intro x hx
                by_contra hb
                exact hany (List.any_eq_true.mpr ⟨x, hx, by simpa using hb⟩)
        · simp [hd] at h
      · simp [hc] at h

theorem assignMatch_good {key line v : List Char} (h : assignMatch key line = some v) :
    v ≠ [] ∧ (∀ c, v.head? = some c → jsWs c = false) ∧ goodChars v := by
  unfold assignMatch at h
  cases hs : stripPre key line with
  | none => rw [hs] at h; exact absurd h (by simp)
  | some r1 =>
    simp only [hs] at h
    match hd : r1.dropWhile jsWs with
    | [] => simp only [hd] at h; exact absurd h (by simp)
    | c :: r2 =>
      simp only [hd] at h
      by_cases hc : c = '='
      · subst hc
        simp only at h
        by_cases hemp : (r2.dropWhile jsWs).isEmpty
        · rw [if_pos hemp] at h; exact absurd h (by simp)
        · rw [if_neg hemp] at h
          by_cases hany : (r2.dropWhile jsWs).any isLineTerm
          · rw [if_pos hany] at h; exact absurd h (by simp)
          · rw [if_neg hany] at h
            obtain rfl : r2.dropWhile jsWs = v := by simpa using h
            refine ⟨fun hnil => by rw [hnil] at hemp; exact hemp rfl,
              fun d hdv => head?_dropWhile_not hdv, fun x hx => ?_⟩
            by_contra hb
            exact hany (List.any_eq_true.mpr ⟨x, hx, by simpa using hb⟩)
      · simp [hc] at h

/-! ## Splitting the serialized text back into its lines -/

theorem splitNl_no_nl {l : List Char} (h : '\n' ∉ l) : splitNl l = [l] := by
  induction l with
  | nil => rfl
  | cons c cs ih =>
    have hc : ¬(c = '\n') := fun e => h (e ▸ List.mem_cons_self c cs)
    have hcs : '\n' ∉ cs := fun e => h (List.mem_cons_of_mem c e)
    rw [splitNl, if_neg hc, ih hcs]

theorem splitNl_append_nl {l cs : List Char} (h : '\n' ∉ l) :
    splitNl (l ++ '\n' :: cs) = l :: splitNl cs := by
  induction l with
  | nil => simp [splitNl]
  | cons a as ih =>
    have ha : ¬(a = '\n') := fun e => h (e ▸ List.mem_cons_self a as)
    have has : '\n' ∉ as := fun e => h (List.mem_cons_of_mem a e)
    rw [List.cons_append, splitNl, if_neg ha, ih has]

theorem joinNl_cons_cons (l : List Char) (l₂ : List Char) (ls : List (List Char)) :
    joinNl (l :: l₂ :: ls) = l ++ '\n' :: joinNl (l₂ :: ls) := rfl

theorem splitNl_joinNl : ∀ (ls : List (List Char)), ls ≠ [] →
    (∀ l ∈ ls, '\n' ∉ l) → splitNl (joinNl ls) = ls := by
  intro ls
  induction ls with
  | nil => intro h; exact absurd rfl h
  | cons l rest ih =>
    intro _ hnl
    cases rest with
    | nil => exact splitNl_no_nl (hnl l (List.mem_cons_self l []))
    | cons l₂ ls =>
      rw [joinNl_cons_cons, splitNl_append_nl (hnl l (List.mem_cons_self l _)),
        ih (by simp) (fun x hx => hnl x (List.mem_cons_of_mem l hx))]

/-! ## Scan step lemmas -/

theorem gmScan_cons_header {i : Nat} {cur : Option Submodule} {line : List Char}
    {rest : List (List Char)} {nm : List Char} (h : headerMatch line = some nm) :
    gmScan i cur (line :: rest)
      = (cur.toList ++ (gmScan (i + 1) (some ⟨String.mk nm, i + 1, none, none⟩) rest).1,
         (gmScan (i + 1) (some ⟨String.mk nm, i + 1, none, none⟩) rest).2) := by
  simp [gmScan, h]

theorem gmScan_cons_path {i : Nat} {s : Submodule} {line : List Char}
    {rest : List (List Char)} {v : List Char}
    (hh : headerMatch line = none) (hp : pathMatch line = some v) :
    gmScan i (some s) (line :: rest)
      = gmScan (i + 1) (some { s with path := some (String.mk (trimChars v)) }) rest := by
  simp [gmScan, hh, hp]

theorem gmScan_cons_url {i : Nat} {s : Submodule} {line : List Char}
    {rest : List (List Char)} {v : List Char}
    (hh : headerMatch line = none) (hp : pathMatch line = none) (hu : urlMatch line = some v) :
    gmScan i (some s) (line :: rest)
      = gmScan (i + 1) (some { s with url := some (String.mk (trimChars v)) }) rest := by
  simp [gmScan, hh, hp, hu]

theorem gmScan_fst_other {i : Nat} {s : Submodule} {line : List Char}
    {rest : List (List Char)}
    (hh : headerMatch line = none) (hp : pathMatch line = none) (hu : urlMatch line = none) :
    (gmScan i (some s) (line :: rest)).1 = (gmScan (i + 1) (some s) rest).1 := by
  simp only [gmScan, hh, hp, hu]
  split_ifs <;> rfl

theorem gmScan_fst_none {i : Nat} {line : List Char} {rest : List (List Char)}
    (hh : headerMatch line = none) :
    (gmScan i none (line :: rest)).1 = (gmScan (i + 1) none rest).1 := by
  simp only [gmScan, hh]
  cases hp : pathMatch line <;> cases hu : urlMatch line <;> split_ifs <;> rfl

/-! ## Trimming the serialized raw lines -/

theorem trim_header_line {n : List Char} :
    trimChars ("[submodule \"".data ++ n ++ "\"]".data)
      = "[submodule \"".data ++ n ++ "\"]".data := by
  apply trimChars_eq_self
  · intro c hc
    have he : ("[submodule \"".data ++ n ++ "\"]".data).head? = some '[' := rfl
    rw [he] at hc
    obtain rfl : '[' = c := Option.some_inj.mp hc
    decide
  · intro c hc
    have he : ("[submodule \"".data ++ n ++ "\"]".data).getLast? = some ']' := by
      rw [List.getLast?_append]; rfl
    rw [he] at hc
    obtain rfl : ']' = c := Option.some_inj.mp hc
    decide

theorem getLast?_append_right {l v : List Char} (hv : v ≠ []) :
    (l ++ v).getLast? = v.getLast? := by
  rw [List.getLast?_append]
  cases hg : v.getLast? with
  | none => exact absurd (List.getLast?_eq_none_iff.mp hg) hv
  | some d => rfl

theorem trim_path_line {p : List Char} (hp : goodVal p) :
    trimChars ("  path = ".data ++ p) = "path = ".data ++ p := by
  obtain ⟨hne, hh, hl, hg⟩ := hp
  unfold trimChars
  have h1 : ("  path = ".data ++ p).dropWhile jsWs = "path = ".data ++ p := by
    show List.dropWhile jsWs (' ' :: ' ' :: ("path = ".data ++ p)) = _
    rw [List.dropWhile_cons, if_pos (by decide), List.dropWhile_cons, if_pos (by decide)]
    show List.dropWhile jsWs ('p' :: ("ath = ".data ++ p)) = _
    rw [List.dropWhile_cons, if_neg (by decide)]
    rfl
  rw [h1]
  apply trimRight_eq_self
  intro c hc
  rw [getLast?_append_right hne] at hc
  exact hl c hc

theorem trim_url_line {u : List Char} (hu : goodVal u) :
    trimChars ("  url = ".data ++ u) = "url = ".data ++ u := by
  obtain ⟨hne, hh, hl, hg⟩ := hu
  unfold trimChars
  have h1 : ("  url = ".data ++ u).dropWhile jsWs = "url = ".data ++ u := by
    show List.dropWhile jsWs (' ' :: ' ' :: ("url = ".data ++ u)) = _
    rw [List.dropWhile_cons, if_pos (by decide), List.dropWhile_cons, if_pos (by decide)]
    show List.dropWhile jsWs ('u' :: ("rl = ".data ++ u)) = _
    rw [List.dropWhile_cons, if_neg (by decide)]
    rfl
  rw [h1]
  apply trimRight_eq_self
  intro c hc
  rw [getLast?_append_right hne] at hc
  exact hl c hc

theorem no_nl_of_goodChars {l : List Char} (hg : goodChars l) : '\n' ∉ l := by
  intro hmem
  have := hg '\n' hmem
  simp [isLineTerm] at this

theorem nl_not_mem_subLines {s : Submodule} (hs : ReadySub s) :
    ∀ l ∈ subLines s, '\n' ∉ l := by
  obtain ⟨hne, hgn, p, u, hp, hu, hgp, hgu⟩ := hs
  intro l hl
  simp only [subLines, List.mem_cons, List.not_mem_nil, or_false] at hl
  rcases hl with rfl | rfl | rfl
  · intro hmem
    rcases List.mem_append.mp hmem with h1 | h1
    · rcases List.mem_append.mp h1 with h2 | h2
      · exact absurd h2 (by decide)
      · exact no_nl_of_goodChars hgn h2
    · exact absurd h1 (by decide)
  · intro hmem
    rcases List.mem_append.mp hmem with h1 | h1
    · exact absurd h1 (by decide)
    · rw [hp] at h1; exact no_nl_of_goodChars hgp.2.2.2 h1
  · intro hmem
    rcases List.mem_append.mp hmem with h1 | h1
    · exact absurd h1 (by decide)
    · rw [hu] at h1; exact no_nl_of_goodChars hgu.2.2.2 h1

theorem flatMap_congr_mem {α β : Type} {l : List α} {f g : α → List β}
    (h : ∀ a ∈ l, f a = g a) : l.flatMap f = l.flatMap g := by
  induction l with
  | nil => rfl
  | cons a as ih =>
    rw [List.flatMap_cons, List.flatMap_cons, h a (List.mem_cons_self a as),
      ih fun b hb => h b (List.mem_cons_of_mem a hb)]

/-- Re-splitting and trimming the serialized text recovers the trimmed
blocks. -/
theorem prepLines_serialized : ∀ (L : List Submodule), (∀ s ∈ L, ReadySub s) →
    prepLines (joinNl (L.flatMap subLines)) = L.flatMap trimmedSubLines := by
  intro L hready
  cases hL : L with
  | nil => rfl
  | cons s₀ L₀ =>
    rw [← hL]
    have hne : L.flatMap subLines ≠ [] := by
      rw [hL, List.flatMap_cons]
      simp [subLines]
    have hnl : ∀ l ∈ L.flatMap subLines, '\n' ∉ l := by
      intro l hl
      obtain ⟨s, hsL, hls⟩ := List.mem_flatMap.mp hl
      exact nl_not_mem_subLines (hready s hsL) l hls
    unfold prepLines
    rw [splitNl_joinNl _ hne hnl, List.map_flatMap]
    have hmap : ∀ s ∈ L, List.map trimChars (subLines s) = trimmedSubLines s := by
      intro s hs
      obtain ⟨hn, hgn, p, u, hp, hu, hgp, hgu⟩ := hready s hs
      simp only [subLines, trimmedSubLines, List.map_cons, List.map_nil, hp, hu, Option.getD_some]
      rw [trim_header_line, trim_path_line hgp, trim_url_line hgu]
    rw [flatMap_congr_mem hmap]
    apply List.filter_eq_self.mpr
    intro l hl
    obtain ⟨s, hsL, hls⟩ := List.mem_flatMap.mp hl
    simp only [trimmedSubLines, List.mem_cons, List.not_mem_nil, or_false] at hls
    rcases hls with rfl | rfl | rfl <;> rfl

/-- Scanning a sequence of serialized (trimmed) blocks yields exactly the
renumbered submodules and no errors. -/
theorem gmScan_serialized : ∀ (L : List Submodule), (∀ s ∈ L, ReadySub s) →
    ∀ (i : Nat) (cur : Option Submodule),
    gmScan i cur (L.flatMap trimmedSubLines) = (cur.toList ++ renumber L i, []) := by
  intro L
  induction L with
  | nil =>
    intro _ i cur
    cases cur <;> simp [gmScan, renumber]
  | cons s L ih =>
    intro hall i cur
    obtain ⟨hname, hgname, p, u, hp, hu, hgp, hgu⟩ := hall s (List.mem_cons_self s L)
    have hblock : trimmedSubLines s
        = [ "[submodule \"".data ++ s.name.data ++ "\"]".data,
            "path = ".data ++ p.data,
            "url = ".data ++ u.data ] := by
      simp [trimmedSubLines, hp, hu]
    rw [List.flatMap_cons, hblock]
    show gmScan i cur (("[submodule \"".data ++ s.name.data ++ "\"]".data)
      :: ("path = ".data ++ p.data) :: ("url = ".data ++ u.data) :: L.flatMap trimmedSubLines) = _
    rw [gmScan_cons_header (headerMatch_block hname hgname)]
    rw [gmScan_cons_path
      (show headerMatch ("path = ".data ++ p.data) = none from rfl) (pathMatch_block hgp)]
    rw [gmScan_cons_url
      (show headerMatch ("url = ".data ++ u.data) = none from rfl)
      (show pathMatch ("url = ".data ++ u.data) = none from rfl) (urlMatch_block hgu)]
    rw [ih (fun t ht => hall t (List.mem_cons_of_mem s ht)) (i + 3)]
    have htp : trimChars p.data = p.data := trimChars_eq_self hgp.2.1 hgp.2.2.1
    have htu : trimChars u.data = u.data := trimChars_eq_self hgu.2.1 hgu.2.2.1
    rw [htp, htu]
    show (cur.toList ++ ([⟨s.name, i + 1, some p, some u⟩] ++ renumber L (i + 1 + 1 + 1)), []) = _
    rw [show renumber (s :: L) i = ⟨s.name, i + 1, s.path, s.url⟩ :: renumber L (i + 3) from rfl,
      hp, hu]
    simp

/-- Every submodule the scan produces satisfies the structural
invariant. -/
theorem gmScan_subs_good : ∀ (lines : List (List Char)) (i : Nat) (cur : Option Submodule),
    (∀ s, cur = some s → GoodPartial s) →
    ∀ s ∈ (gmScan i cur lines).1, GoodPartial s := by
  intro lines
  induction lines with
  | nil =>
    intro i cur hcur s hs
    cases cur with
    | none => exact absurd hs (List.not_mem_nil s)
    | some c =>
      obtain rfl : s = c := by simpa [gmScan] using hs
      exact hcur s rfl
  | cons line rest ih =>
    intro i cur hcur s hs
    cases hh : headerMatch line with
    | some nm =>
      rw [gmScan_cons_header hh] at hs
      rcases List.mem_append.mp hs with h1 | h2
      · cases cur with
        | none => exact absurd h1 (List.not_mem_nil s)
        | some c =>
          obtain rfl : s = c := by simpa using h1
          exact hcur s rfl
      · refine ih (i + 1) _ ?_ s h2
        intro t ht
        obtain rfl : t = ⟨String.mk nm, i + 1, none, none⟩ := (Option.some_inj.mp ht.symm)
        obtain ⟨hne, hg⟩ := headerMatch_good hh
        exact ⟨hne, hg, fun q hq => by simp at hq, fun q hq => by simp at hq⟩
    | none =>
      cases cur with
      | some s₀ =>
        cases hpm : pathMatch line with
        | some v =>
          rw [gmScan_cons_path hh hpm] at hs
          refine ih (i + 1) _ ?_ s hs
          intro t ht
          obtain rfl : t = { s₀ with path := some (String.mk (trimChars v)) } :=
            (Option.some_inj.mp ht.symm)
          obtain ⟨hn, hgn, hpath, hurl⟩ := hcur s₀ rfl
          obtain ⟨hvne, hvh, hvg⟩ := assignMatch_good hpm
          refine ⟨hn, hgn, ?_, hurl⟩
          intro q hq
          obtain rfl : String.mk (trimChars v) = q := Option.some_inj.mp hq
          exact goodVal_trimChars hvne hvh hvg
        | none =>
          cases hum : urlMatch line with
          | some v =>
            rw [gmScan_cons_url hh hpm hum] at hs
            refine ih (i + 1) _ ?_ s hs
            intro t ht
            obtain rfl : t = { s₀ with url := some (String.mk (trimChars v)) } :=
              (Option.some_inj.mp ht.symm)
            obtain ⟨hn, hgn, hpath, hurl⟩ := hcur s₀ rfl
            obtain ⟨hvne, hvh, hvg⟩ := assignMatch_good hum
            refine ⟨hn, hgn, hpath, ?_⟩
            intro q hq
            obtain rfl : String.mk (trimChars v) = q := Option.some_inj.mp hq
            exact goodVal_trimChars hvne hvh hvg
          | none =>
            rw [gmScan_fst_other hh hpm hum] at hs
            exact ih (i + 1) (some s₀) hcur s hs
      | none =>
        rw [gmScan_fst_none hh] at hs
        exact ih (i + 1) none (fun t ht => absurd ht (by simp)) s hs

/-- A submodule that passes the semantic checks has present, non-empty
path and url, and a url of an accepted scheme; with the structural
invariant it is ready for serialization. -/
theorem semErrors_nil_ready {s : Submodule} (hgp : GoodPartial s) (h : semErrors s = []) :
    ReadySub s ∧ ∀ u, s.url = some u → goodScheme u = true := by
  obtain ⟨hn, hgn, hpath, hurl⟩ := hgp
  unfold semErrors at h
  obtain ⟨h12, hurlF⟩ := List.append_eq_nil.mp h
  obtain ⟨h1, h2⟩ := List.append_eq_nil.mp h12
  have hpf : optFalsy s.path = false := by
    by_contra hb
    rw [errIf, if_pos (by simpa using hb)] at h1
    exact absurd h1 (by simp)
  have huf : optFalsy s.url = false := by
    by_contra hb
    rw [errIf, if_pos (by simpa using hb)] at h2
    exact absurd h2 (by simp)
  obtain ⟨p, hp⟩ : ∃ p, s.path = some p := by
    cases hsp : s.path with
    | none => rw [hsp] at hpf; exact absurd hpf (by simp [optFalsy])
    | some p => exact ⟨p, rfl⟩
  obtain ⟨u, hu⟩ : ∃ u, s.url = some u := by
    cases hsu : s.url with
    | none => rw [hsu] at huf; exact absurd huf (by simp [optFalsy])
    | some u => exact ⟨u, rfl⟩
  have hscheme : ∀ w, s.url = some w → goodScheme w = true := by
    intro w hw
    have hwf : optFalsy s.url = false := huf
    rw [hw] at hwf
    have hwne : (w == "") = false := by simpa [optFalsy] using hwf
    have hF : urlFormatErrors s = [] := hurlF
    simp only [urlFormatErrors, hw, hwne, Bool.not_false, Bool.true_and] at hF
    by_contra hb
    rw [show goodScheme w = false by simpa using hb] at hF
    exact absurd hF (by simp)
  exact ⟨⟨hn, hgn, p, u, hp, hu, hpath p hp, hurl u hu⟩, hscheme⟩

/-! ## Renumbering preserves the serialized form, the semantic checks and
the canonical order -/

theorem renumber_subLines : ∀ (L : List Submodule) (i : Nat),
    (renumber L i).flatMap subLines = L.flatMap subLines := by
  intro L
  induction L with
  | nil => intro i; rfl
  | cons s L ih =>
    intro i
    rw [renumber, List.flatMap_cons, List.flatMap_cons, ih (i + 3)]
    rfl

theorem renumber_semErrors : ∀ (L : List Submodule) (i : Nat),
    (renumber L i).flatMap semErrors = L.flatMap semErrors := by
  intro L
  induction L with
  | nil => intro i; rfl
  | cons s L ih =>
    intro i
    rw [renumber, List.flatMap_cons, List.flatMap_cons, ih (i + 3)]
    rfl

theorem mem_renumber : ∀ {t : Submodule} {L : List Submodule} {i : Nat},
    t ∈ renumber L i → ∃ s ∈ L, t.name = s.name ∧ t.path = s.path ∧ t.url = s.url := by
  intro t L
  induction L with
  | nil => intro i ht; exact absurd ht (List.not_mem_nil t)
  | cons s L ih =>
    intro i ht
    rw [renumber] at ht
    rcases List.mem_cons.mp ht with rfl | hmem
    · exact ⟨s, List.mem_cons_self s L, rfl, rfl, rfl⟩
    · obtain ⟨s', hs', h⟩ := ih hmem
      exact ⟨s', List.mem_cons_of_mem s hs', h⟩

theorem sorted_renumber : ∀ {L : List Submodule} (i : Nat),
    List.Sorted subLe L → List.Sorted subLe (renumber L i) := by
  intro L
  induction L with
  | nil => intro i _; exact List.sorted_nil
  | cons s L ih =>
    intro i h
    rw [List.sorted_cons] at h
    rw [renumber, List.sorted_cons]
    refine ⟨?_, ih (i + 3) h.2⟩
    intro t ht
    obtain ⟨s', hs', _, hpath, _⟩ := mem_renumber ht
    have := h.1 s' hs'
    rw [subLe] at this ⊢
    rw [hpath]
    exact this

/-- Idempotence of the gitmodules canonical sorter at the text level: a
successful sort is a fixed point. -/
theorem sortGitmodulesText_idem : ∀ (x y : String),
    sortGitmodulesText x = some y → sortGitmodulesText y = some y := by
  intro x y h
  unfold sortGitmodulesText at h
  by_cases hv : (validateGitmodules x).isValid = true
  · rw [if_pos hv] at h
    obtain rfl : serializeGitmodules (sortSubmodules (validateGitmodules x).submodules) = y :=
      Option.some_inj.mp h
    have herr : (validateGitmodules x).errors = [] := by
      rw [validateGitmodules_isValid] at hv
      exact List.isEmpty_iff.mp hv
    have hsem : ∀ s ∈ (validateGitmodules x).submodules, semErrors s = [] := by
      rw [validateGitmodules_errors] at herr
      have h2 := (List.append_eq_nil.mp herr).2
      rw [← validateGitmodules_submodules] at h2
      exact fun s hs => List.flatMap_eq_nil_iff.mp h2 s hs
    have hgood : ∀ s ∈ (validateGitmodules x).submodules, GoodPartial s := by
      intro s hs
      rw [validateGitmodules_submodules] at hs
      exact gmScan_subs_good _ 0 none (fun t ht => absurd ht (by simp)) s hs
    have hready : ∀ s ∈ (validateGitmodules x).submodules,
        ReadySub s ∧ ∀ u, s.url = some u → goodScheme u = true :=
      fun s hs => semErrors_nil_ready (hgood s hs) (hsem s hs)
    have hsortmem : ∀ s ∈ sortSubmodules (validateGitmodules x).submodules,
        s ∈ (validateGitmodules x).submodules :=
      fun s hs => (List.perm_insertionSort subLe _).mem_iff.mp hs
    have hreadySorted : ∀ s ∈ sortSubmodules (validateGitmodules x).submodules, ReadySub s :=
      fun s hs => (hready s (hsortmem s hs)).1
    have hprep : prepLines
        (serializeGitmodules (sortSubmodules (validateGitmodules x).submodules)).data
        = (sortSubmodules (validateGitmodules x).submodules).flatMap trimmedSubLines :=
      prepLines_serialized _ hreadySorted
    have hscan : gmScan 0 none
        ((sortSubmodules (validateGitmodules x).submodules).flatMap trimmedSubLines)
        = (renumber (sortSubmodules (validateGitmodules x).submodules) 0, []) := by
      rw [gmScan_serialized _ hreadySorted 0 none]
      rfl
    have hsub_y : (validateGitmodules
        (serializeGitmodules (sortSubmodules (validateGitmodules x).submodules))).submodules
        = renumber (sortSubmodules (validateGitmodules x).submodules) 0 := by
      rw [validateGitmodules_submodules, hprep, hscan]
    have herr_y : (validateGitmodules
        (serializeGitmodules (sortSubmodules (validateGitmodules x).submodules))).errors = [] := by
      rw [validateGitmodules_errors, hprep, hscan]
      simp only [renumber_semErrors, List.nil_append]
      exact List.flatMap_eq_nil_iff.mpr fun s hs => hsem s (hsortmem s hs)
    have hval_y : (validateGitmodules
        (serializeGitmodules (sortSubmodules (validateGitmodules x).submodules))).isValid = true := by
      rw [validateGitmodules_isValid, herr_y]
      rfl
    unfold sortGitmodulesText
    rw [if_pos hval_y, hsub_y]
    have hfix : sortSubmodules (renumber (sortSubmodules (validateGitmodules x).submodules) 0)
        = renumber (sortSubmodules (validateGitmodules x).submodules) 0 :=
      List.Sorted.insertionSort_eq (sorted_renumber 0 (List.sorted_insertionSort subLe _))
    rw [show sortSubmodules (renumber (sortSubmodules (validateGitmodules x).submodules) 0)
        = renumber (sortSubmodules (validateGitmodules x).submodules) 0 from hfix]
    unfold serializeGitmodules
    rw [renumber_subLines]
  · rw [if_neg hv] at h
    exact absurd h (by simp)

/-- C4.  Both canonical sorters are idempotent: sorting the registry
entries (by id, lexicographic ascending) twice equals sorting once, and a
successful gitmodules text canonicalization (parse, sort sections by path,
serialize) is a fixed point of the canonicalization. -/
theorem claim_C4 :
    (∀ reg : ExtensionsToml, sortRegistryEntries (sortRegistryEntries reg) = sortRegistryEntries reg)
    ∧ (∀ x y : String, sortGitmodulesText x = some y → sortGitmodulesText y = some y) :=
  ⟨fun reg => List.Sorted.insertionSort_eq (List.sorted_insertionSort regLe reg),
   sortGitmodulesText_idem⟩

/-- Witness for C4 at a concrete unsorted gitmodules file: its
canonicalization is a fixed point of the sorter. -/
theorem claim_C4_witness :
    sortGitmodulesText
      "[submodule \"a\"]\n  path = aa\n  url = https://a\n[submodule \"b\"]\n  path = zz\n  url = https://b"
    = some
      "[submodule \"a\"]\n  path = aa\n  url = https://a\n[submodule \"b\"]\n  path = zz\n  url = https://b" :=
  claim_C4.2
    "[submodule \"b\"]\npath = zz\nurl = https://b\n[submodule \"a\"]\npath = aa\nurl = https://a"
    "[submodule \"a\"]\n  path = aa\n  url = https://a\n[submodule \"b\"]\n  path = zz\n  url = https://b"
    (by decide)

end Extensions
